import Mathlib

set_option maxHeartbeats 1000000

/-!
Shallow embedding of `src/storage_audit.py`: a storage audit tool that scans a
directory tree, aggregates file sizes and counts, prunes entries below a byte
threshold, and renders an indented size-sorted report.
-/

/-- The kinds of Python exceptions the audit tool can encounter during
filesystem I/O: `FileNotFoundError`, `PermissionError`, and any other
`OSError` (e.g. `NotADirectoryError`). -/
inductive PyError where
  | fileNotFound
  | permission
  | osError
deriving DecidableEq

/-- A filesystem entry as observed by the scanner: a readable regular file
with a byte size, a file whose `os.path.getsize` call raises an error, a
listable directory with named entries (in `os.listdir` order), or a directory
whose `os.listdir` call raises an error. -/
inductive FSEntry where
  | file (size : Nat)
  | badFile (err : PyError)
  | dir (entries : List (String × FSEntry))
  | badDir (err : PyError)

/-- The dictionary built by `scan_directory`, with keys `name`, `files`,
`num_files` and `total_size`. -/
inductive AuditNode where
  | mk (name : String) (files : List AuditNode) (num_files : Nat) (total_size : Nat)

mutual

def AuditNode.beq : AuditNode → AuditNode → Bool
  | .mk n1 f1 c1 s1, .mk n2 f2 c2 s2 =>
    n1 == n2 && AuditNode.beqList f1 f2 && c1 == c2 && s1 == s2

def AuditNode.beqList : List AuditNode → List AuditNode → Bool
  | [], [] => true
  | a :: as, b :: bs => AuditNode.beq a b && AuditNode.beqList as bs
  | _, _ => false

end

mutual

theorem AuditNode.beq_iff : ∀ a b : AuditNode, AuditNode.beq a b = true ↔ a = b
  | .mk n1 f1 c1 s1, .mk n2 f2 c2 s2 => by
    simp [AuditNode.beq, AuditNode.beqList_iff f1 f2]
    tauto

theorem AuditNode.beqList_iff : ∀ a b : List AuditNode, AuditNode.beqList a b = true ↔ a = b
  | [], [] => by simp [AuditNode.beqList]
  | [], _ :: _ => by simp [AuditNode.beqList]
  | _ :: _, [] => by simp [AuditNode.beqList]
  | a :: as, b :: bs => by
    simp [AuditNode.beqList, AuditNode.beq_iff a b, AuditNode.beqList_iff as bs]

end

instance : DecidableEq AuditNode := fun a b =>
  decidable_of_iff (AuditNode.beq a b = true) (AuditNode.beq_iff a b)

def AuditNode.name : AuditNode → String
  | .mk n _ _ _ => n

def AuditNode.files : AuditNode → List AuditNode
  | .mk _ f _ _ => f

def AuditNode.num_files : AuditNode → Nat
  | .mk _ _ c _ => c

def AuditNode.total_size : AuditNode → Nat
  | .mk _ _ _ s => s

/-- `os.path.isdir` on an entry: true for directories, including those whose
listing later fails (a directory that cannot be listed can still be `stat`ed);
false for files, including ones whose size query fails. -/
def FSEntry.isDir : FSEntry → Bool
  | .dir _ => true
  | .badDir _ => true
  | _ => false

/-- `os.path.getsize` on an entry: the size for a readable file, the raised
error for an unreadable one.  (Never invoked on directories by the scanner,
since the `isdir` branch takes those.) -/
def FSEntry.getsize : FSEntry → Except PyError Nat
  | .file sz => .ok sz
  | .badFile e => .error e
  | .dir _ => .ok 0
  | .badDir _ => .ok 0

mutual

/-- `scan_directory(path, threshold)` from `src/storage_audit.py`, applied to
the entry that `path` resolves to (with `name` the `os.path.basename` of
`path`).  `os.listdir` is tried first: a `PermissionError` is caught and
treated as an empty listing; any other error propagates.  Then the listing is
folded over in order, recursing into directories and sizing files. -/
def scan_directory (name : String) (threshold : Nat) : FSEntry → Except PyError AuditNode
  | .dir entries =>
    match scan_list threshold entries with
    | .ok (found, nf, sz) => .ok (.mk name found nf sz)
    | .error e => .error e
  | .badDir .permission => .ok (.mk name [] 0 0)
  | .badDir e => .error e
  | .file _ => .error .osError
  | .badFile e => .error e

/-- The `for file in files` loop of `scan_directory`: returns the accumulated
`found_files`, `num_files` and `directory_size` for a listing, or the first
error raised while processing it. -/
def scan_list (threshold : Nat) : List (String × FSEntry) → Except PyError (List AuditNode × Nat × Nat)
  | [] => .ok ([], 0, 0)
  | (nm, e) :: rest =>
    if e.isDir then
      match scan_directory nm threshold e with
      | .error err => .error err
      | .ok sub =>
        match scan_list threshold rest with
        | .error err => .error err
        | .ok (found, nf, sz) =>
          .ok ((if threshold ≤ sub.total_size then [sub] else []) ++ found,
               sub.num_files + nf, sub.total_size + sz)
    else
      match e.getsize with
      | .error err => .error err
      | .ok fsz =>
        match scan_list threshold rest with
        | .error err => .error err
        | .ok (found, nf, sz) =>
          .ok ((if threshold ≤ fsz then [AuditNode.mk nm [] 0 fsz] else []) ++ found,
               1 + nf, fsz + sz)

end

example : scan_directory "r" 1000 (.dir [("a", .file 500), ("b", .file 2000)]) =
    .ok (.mk "r" [.mk "b" [] 0 2000] 2 2500) := rfl

/-- Round `p / q` to the nearest integer, ties to even (`q > 0`). -/
def rndHalfEven (p q : Nat) : Nat :=
  let d := p / q
  let r := p % q
  if 2 * r < q then d
  else if q < 2 * r then d + 1
  else if d % 2 = 0 then d else d + 1

/-- `floor (log2 n)` for `n ≥ 1`, computed with a structural fuel bound
(`fuel ≥ bit length` suffices; the value itself is a valid bound). -/
def log2F : Nat → Nat → Nat
  | 0, _ => 0
  | fuel + 1, n => if n < 2 then 0 else log2F fuel (n / 2) + 1

/-- `floor (log10 n)` for `n ≥ 1`, computed with a structural fuel bound. -/
def log10F : Nat → Nat → Nat
  | 0, _ => 0
  | fuel + 1, n => if n < 10 then 0 else log10F fuel (n / 10) + 1

/-- The IEEE-754 binary64 value nearest to `a / b` (for `1 ≤ a / b`, well
inside the normal range), returned as an exact fraction
(numerator, denominator): the significand is rounded to 53 bits with ties to
even, and a carry to `2^53` is renormalized.  This is the rounding applied by
CPython when converting an int to a float, by float division, and when
`strtod` reads a decimal back into a float. -/
def flRat (a b : Nat) : Nat × Nat :=
  let t := log2F (a / b) (a / b)
  let m := if t ≤ 52 then rndHalfEven (a * 2 ^ (52 - t)) b else rndHalfEven a (b * 2 ^ (t - 52))
  let m2 := if m = 2 ^ 53 then 2 ^ 52 else m
  let t2 := if m = 2 ^ 53 then t + 1 else t
  if 52 ≤ t2 then (m2 * 2 ^ (t2 - 52), 1) else (m2, 2 ^ (52 - t2))

/-- Whether two fractions denote the same rational number. -/
def ratEq (x y : Nat × Nat) : Bool := decide (x.1 * y.2 = y.1 * x.2)

/-- CPython `round(x, 2)` for a float of exact value `a / b ≥ 1`: the exact
binary value is correctly rounded to two decimal places (David Gay's dtoa,
mode 3; its round-to-nearest tie rule is moot here, because `x * 100` is
never a half-integer when `x` is a binary rational), and the resulting
decimal is read back to the nearest float; returns that float's exact
value. -/
def pyRound2 (a b : Nat) : Nat × Nat :=
  flRat (rndHalfEven (100 * a) b) 100

/-- The decimal with `k` significant digits nearest to `a / b ≥ 1` (ties to
even), as (digit block, decimal exponent); a carry to `10^k` renormalizes. -/
def sigDigits (a b k : Nat) : Nat × Nat :=
  let d := log10F (a / b) (a / b)
  let c := if d + 1 ≤ k then rndHalfEven (a * 10 ^ (k - 1 - d)) b
           else rndHalfEven a (b * 10 ^ (d + 1 - k))
  if c = 10 ^ k then (10 ^ (k - 1), d + 1) else (c, d)

/-- `x < 10^f` rendered with exactly `f` digits (leading zeros kept). -/
def natDigitsPad (x f : Nat) : String :=
  let s := toString x
  String.mk (List.replicate (f - s.length) '0') ++ s

/-- Fixed-point rendering of the digit block `c` (with `k` digits and
decimal exponent `d`), with at least one fractional digit, as Python's repr
prints a float whose decimal exponent is below 16. -/
def fixedRepr (c d k : Nat) : String :=
  if k ≤ d + 1 then toString (c * 10 ^ (d + 1 - k)) ++ ".0"
  else toString (c / 10 ^ (k - (d + 1))) ++ "." ++ natDigitsPad (c % 10 ^ (k - (d + 1))) (k - (d + 1))

/-- Python `repr` (the f-string rendering) of a float of exact value `a / b`
with `1 ≤ a / b < 10^16`: the shortest decimal that reads back to the same
float (dtoa mode 0 — for each digit count the candidate tried is the
correctly rounded one), rendered in fixed point.  Floats of `10^16` and
above print in scientific notation, which this model does not cover. -/
def pyRepr (a b : Nat) : String :=
  match (List.range 17).findSome? (fun i =>
      let k := i + 1
      let cd := sigDigits a b k
      let cand : Nat × Nat :=
        if k ≤ cd.2 + 1 then (cd.1 * 10 ^ (cd.2 + 1 - k), 1) else (cd.1, 10 ^ (k - (cd.2 + 1)))
      if ratEq (flRat cand.1 cand.2) (a, b) then some (cd.1, cd.2, k) else none) with
  | some cdk => fixedRepr cdk.1 cdk.2.1 cdk.2.2
  | none => fixedRepr (sigDigits a b 17).1 (sigDigits a b 17).2 17

/-- The exact value of the Python float `num_bytes / base`: the integer is
converted to the nearest float, then divided by the (exactly representable)
base with correct rounding.  For the `base = 1000` branch the source divides
int by int — a single correctly rounded step — but there `n < 10^6` makes the
int-to-float conversion exact, so the two coincide. -/
def pyDiv (n base : Nat) : Nat × Nat :=
  let x1 := flRat n 1
  flRat x1.1 (x1.2 * base)

/-- The f-string rendering of `round(num_bytes / base, 2)` exactly as the
program computes it, in binary64 floating point. -/
def pyRoundRepr (n base : Nat) : String :=
  let x := pyDiv n base
  let z := pyRound2 x.1 x.2
  pyRepr z.1 z.2

/-- `storage_repr(num_bytes)` from `src/storage_audit.py`: the cascade of
comparisons against 1e12, 1e9, 1e6 and 1000 (the float literals represent
those powers of ten exactly, and an int-float comparison in Python is
exact), each branch rendering `round(num_bytes / base, 2)` in binary64
floating point.  Faithful to the program for byte counts whose converted
value stays below `10^16` (about `10^28` bytes) — beyond that Python's repr
switches to scientific notation, and near `1.8 * 10^320` the int-to-float
conversion overflows; neither is modelled. -/
def storage_repr (num_bytes : Nat) : String :=
  if 10 ^ 12 ≤ num_bytes then pyRoundRepr num_bytes (10 ^ 12) ++ " TB"
  else if 10 ^ 9 ≤ num_bytes then pyRoundRepr num_bytes (10 ^ 9) ++ " GB"
  else if 10 ^ 6 ≤ num_bytes then pyRoundRepr num_bytes (10 ^ 6) ++ " MB"
  else if 1000 ≤ num_bytes then pyRoundRepr num_bytes 1000 ++ " KB"
  else toString num_bytes ++ " bytes"

/-- The exact rational `n / base` rounded to two decimal places with ties to
even, as an integer number of hundredths: the claim's literal reading of
"the value rounded to two decimal places", used by `storage_repr_spec` (the
program instead rounds the binary64 approximation of the quotient). -/
def hundredths (n base : Nat) : Nat := rndHalfEven (100 * n) base

/-- Plain rendering of a quotient given in hundredths: the integer part, a
dot, and the fractional digits with a trailing zero stripped but at least
one fractional digit kept — how the two-decimal value of the claim's
literal reading would print. -/
def numStr (h : Nat) : String :=
  let ip := h / 100
  let fr := h % 100
  if fr = 0 then toString ip ++ ".0"
  else if fr % 10 = 0 then toString ip ++ "." ++ toString (fr / 10)
  else if fr < 10 then toString ip ++ ".0" ++ toString fr
  else toString ip ++ "." ++ toString fr

example : storage_repr 500 = "500 bytes" := rfl

example : storage_repr 1500 = "1.5 KB" := rfl

/-- One insertion step of a stable descending sort: `x` moves past exactly the
elements strictly larger than it, so elements of equal size keep their
relative order. -/
def insertDesc (x : AuditNode) : List AuditNode → List AuditNode
  | [] => [x]
  | y :: ys => if x.total_size < y.total_size then y :: insertDesc x ys else x :: y :: ys

/-- Python `results['files'].sort(key=lambda x: x['total_size'], reverse=True)`:
a stable sort by `total_size` descending, realized as insertion sort. -/
def sortChildren : List AuditNode → List AuditNode
  | [] => []
  | x :: xs => insertDesc x (sortChildren xs)

theorem sizeOf_insertDesc (x : AuditNode) (l : List AuditNode) :
    sizeOf (insertDesc x l) = 1 + sizeOf x + sizeOf l := by
  induction l with
  | nil => simp [insertDesc]
  | cons y ys ih =>
    simp only [insertDesc]
    by_cases h : x.total_size < y.total_size
    · simp [h, ih]
      omega
    · simp [h]

theorem sizeOf_sortChildren (l : List AuditNode) :
    sizeOf (sortChildren l) = sizeOf l := by
  induction l with
  | nil => simp [sortChildren]
  | cons x xs ih => simp [sortChildren, sizeOf_insertDesc, ih]

/-- The count suffix written at the end of a node's line, exactly as the two
`if` statements (the second with an `else`) emit it: `num_files == 1` appends
`" (1 file)"` plus a newline, and then the `else` of the `num_files > 1` test
still appends a second newline. -/
def countSuffix (n : Nat) : String :=
  (if n = 1 then " (" ++ toString n ++ " file)" ++ "\n" else "") ++
  (if 1 < n then " (" ++ toString n ++ " files)" ++ "\n" else "\n")

/-- The `for _ in range(indent)` loop: one four-space unit per level. -/
def indentStr (n : Nat) : String := String.join (List.replicate n "    ")

/-- The text emitted for a single node before its children are handled:
indentation, `name - size`, then the count suffix. -/
def nodeLine (r : AuditNode) (indent : Nat) : String :=
  indentStr indent ++ r.name ++ " - " ++ storage_repr r.total_size ++ countSuffix r.num_files

mutual

/-- `print_scan_results(results, file, indent)` from `src/storage_audit.py`,
modelled on the file sink: returns the text written to the sink and the node
as it stands after the call, reflecting the in-place
`results['files'].sort(...)` performed at every visited node before its
children are rendered. -/
def print_scan_results (r : AuditNode) (indent : Nat) : String × AuditNode :=
  match r with
  | .mk nm fs c s =>
    let rest := print_scan_list (sortChildren fs) (indent + 1)
    (nodeLine (.mk nm fs c s) indent ++ rest.1, .mk nm rest.2 c s)
termination_by sizeOf r
decreasing_by
  simp_wf
  simp [sizeOf_sortChildren]
  omega

/-- The `for subdirectory in results['files']` loop: renders each (already
sorted) child at the next indent level, concatenating their output and
collecting their mutated forms. -/
def print_scan_list (cs : List AuditNode) (indent : Nat) : String × List AuditNode :=
  match cs with
  | [] => ("", [])
  | c :: rest =>
    let r1 := print_scan_results c indent
    let r2 := print_scan_list rest indent
    (r1.1 ++ r2.1, r1.2 :: r2.2)
termination_by sizeOf cs
decreasing_by
  all_goals (simp_wf <;> omega)

end

/-- `file_name(name)` from `src/storage_audit.py`: drop colons, turn path
separators into dashes, and add the `-audit.txt` ending. -/
def file_name (name : String) : String :=
  ((name.replace ":" "").replace "/" "-") ++ "-audit.txt"

/-- `main(path, threshold)` from `src/storage_audit.py`, applied to the entry
the root path resolves to: a `FileNotFoundError` from the scan is caught and
turned into exit status 1, a successful scan is rendered and gives exit
status 0, and any other exception escapes `main` uncaught.  (Named
`audit_main` here because a Lean declaration called `main` must be an entry
point.) -/
def audit_main (rootName : String) (threshold : Nat) (root : FSEntry) : Except PyError Nat :=
  match scan_directory rootName threshold root with
  | .ok _ => .ok 0
  | .error .fileNotFound => .ok 1
  | .error e => .error e

/-- Whether an `Except` computation finished without raising. -/
def exOk {ε α : Type} : Except ε α → Bool
  | .ok _ => true
  | .error _ => false

mutual

/-- The number of bytes the scanner can actually account for below an entry:
the sizes of readable files, recursively through listable directories;
entries inside unlistable directories (and files whose size query fails)
contribute nothing. -/
def readable_size : FSEntry → Nat
  | .file sz => sz
  | .badFile _ => 0
  | .dir entries => readable_size_list entries
  | .badDir _ => 0

def readable_size_list : List (String × FSEntry) → Nat
  | [] => 0
  | (_, e) :: rest => readable_size e + readable_size_list rest

end

mutual

/-- Whether scanning this entry (in loop position) raises an uncaught
exception: a file whose size query fails, or a directory whose listing fails
with anything other than `PermissionError`, or a listable directory
containing such an entry. -/
def fatal : FSEntry → Bool
  | .file _ => false
  | .badFile _ => true
  | .dir entries => fatal_list entries
  | .badDir .permission => false
  | .badDir _ => true

def fatal_list : List (String × FSEntry) → Bool
  | [] => false
  | (_, e) :: rest => fatal e || fatal_list rest

end

mutual

/-- Removes from every `files` list the nodes whose `total_size` is below the
threshold, recursively. -/
def pruneNode (t : Nat) : AuditNode → AuditNode
  | .mk nm fs c s => .mk nm (pruneList t fs) c s

def pruneList (t : Nat) : List AuditNode → List AuditNode
  | [] => []
  | c :: cs => (if t ≤ c.total_size then [pruneNode t c] else []) ++ pruneList t cs

end

mutual

/-- Whether `d` occurs in the tree rooted at `n` (as `n` itself or anywhere in
a `files` list). -/
def isDescB (n d : AuditNode) : Bool :=
  match n with
  | .mk nm fs c s => decide (AuditNode.mk nm fs c s = d) || isDescList fs d

def isDescList (l : List AuditNode) (d : AuditNode) : Bool :=
  match l with
  | [] => false
  | c :: cs => isDescB c d || isDescList cs d

end

mutual

/-- Whether every node appearing in a `files` list anywhere in the tree has
`total_size` at least `t` (the root itself is not constrained). -/
def allAbove (t : Nat) : AuditNode → Bool
  | .mk _ fs _ _ => allAboveList t fs

def allAboveList (t : Nat) : List AuditNode → Bool
  | [] => true
  | c :: cs => (decide (t ≤ c.total_size) && allAbove t c) && allAboveList t cs

end

mutual

/-- Whether every child's `total_size` is bounded by its parent's,
recursively. -/
def sizeMono : AuditNode → Bool
  | .mk _ fs _ s => sizeMonoList s fs

def sizeMonoList (s : Nat) : List AuditNode → Bool
  | [] => true
  | c :: cs => (decide (c.total_size ≤ s) && sizeMono c) && sizeMonoList s cs

end

/-- Whether a list of nodes is in non-increasing `total_size` order. -/
def sortedDesc : List AuditNode → Bool
  | [] => true
  | [_] => true
  | a :: b :: rest => decide (b.total_size ≤ a.total_size) && sortedDesc (b :: rest)

mutual

/-- Whether every `files` list in the tree is in non-increasing `total_size`
order. -/
def everySorted : AuditNode → Bool
  | .mk _ fs _ _ => sortedDesc fs && everySortedList fs

def everySortedList : List AuditNode → Bool
  | [] => true
  | c :: cs => everySorted c && everySortedList cs

end

/-- The unit ladder of the spec, largest first, with the decimal (1000-based)
byte count of each unit. -/
def unitTable : List (Nat × String) := [(10 ^ 12, "TB"), (10 ^ 9, "GB"), (10 ^ 6, "MB"), (1000, "KB")]

/-- Modelled from the spec's words, read literally, for comparison with
`storage_repr`: pick the largest unit among TB, GB, MB, KB for which the
converted value is at least 1, render the exact value rounded to two decimal
places followed by the unit; below 1000 bytes render the raw integer
followed by `" bytes"`.  The program diverges from this reading at
representation-induced near-ties, because it rounds the binary64
approximation of the quotient instead of the exact quotient. -/
def storage_repr_spec (n : Nat) : String :=
  match unitTable.find? (fun u => decide (1 ≤ (n : ℚ) / (u.1 : ℚ))) with
  | some u => numStr (hundredths n u.1) ++ (" " ++ u.2)
  | none => toString n ++ " bytes"

/-- Modelled from the spec's words with the displayed value amended to be
the one the program actually computes: pick the largest unit among TB, GB,
MB, KB for which the converted value is at least 1 (decimal 1000-based
boundaries), render Python's float `round(n / base, 2)` followed by the
unit; below 1000 bytes render the raw integer followed by `" bytes"`. -/
def storage_repr_py_spec (n : Nat) : String :=
  match unitTable.find? (fun u => decide (1 ≤ (n : ℚ) / (u.1 : ℚ))) with
  | some u => pyRoundRepr n u.1 ++ (" " ++ u.2)
  | none => toString n ++ " bytes"

/-! ### Lemmas about the scanner -/

mutual

theorem scan_directory_total : ∀ (e : FSEntry) (nm : String) (t : Nat) (node : AuditNode),
    scan_directory nm t e = .ok node → node.total_size = readable_size e
  | .file _, _, _, _ => by simp [scan_directory]
  | .badFile _, _, _, _ => by simp [scan_directory]
  | .badDir err, nm, t, node => by
    cases err <;> simp [scan_directory, readable_size]
    rintro rfl
    rfl
  | .dir entries, nm, t, node => by
    intro h
    simp only [scan_directory] at h
    cases hsl : scan_list t entries with
    | error e => rw [hsl] at h; exact absurd h (by simp)
    | ok r =>
      obtain ⟨found, nf, sz⟩ := r
      rw [hsl] at h
      simp at h
      have := scan_list_total entries t found nf sz hsl
      rw [readable_size, ← this, ← h]
      rfl

theorem scan_list_total : ∀ (l : List (String × FSEntry)) (t : Nat)
    (found : List AuditNode) (nf sz : Nat),
    scan_list t l = .ok (found, nf, sz) → sz = readable_size_list l
  | [], _, found, nf, sz => by
    intro h
    simp only [scan_list, Except.ok.injEq, Prod.mk.injEq] at h
    rw [readable_size_list]
    omega
  | (nm, e) :: rest, t, found, nf, sz => by
    intro h
    rw [readable_size_list]
    simp only [scan_list] at h
    by_cases hd : e.isDir
    · rw [if_pos hd] at h
      cases hsd : scan_directory nm t e with
      | error err => rw [hsd] at h; exact absurd h (by simp)
      | ok sub =>
        rw [hsd] at h
        cases hsl : scan_list t rest with
        | error err => rw [hsl] at h; exact absurd h (by simp)
        | ok r =>
          obtain ⟨found2, nf2, sz2⟩ := r
          rw [hsl] at h
          simp at h
          obtain ⟨-, -, hsz⟩ := h
          rw [← hsz, scan_directory_total e nm t sub hsd,
              scan_list_total rest t found2 nf2 sz2 hsl]
    · rw [if_neg hd] at h
      cases hgs : e.getsize with
      | error err => rw [hgs] at h; exact absurd h (by simp)
      | ok fsz =>
        rw [hgs] at h
        cases hsl : scan_list t rest with
        | error err => rw [hsl] at h; exact absurd h (by simp)
        | ok r =>
          obtain ⟨found2, nf2, sz2⟩ := r
          rw [hsl] at h
          simp at h
          obtain ⟨-, -, hsz⟩ := h
          have hfsz : fsz = readable_size e := by
            cases e <;> simp_all [FSEntry.getsize, FSEntry.isDir, readable_size]
          rw [← hsz, hfsz, scan_list_total rest t found2 nf2 sz2 hsl]

end

theorem allAboveList_append (t : Nat) (a b : List AuditNode) :
    allAboveList t (a ++ b) = (allAboveList t a && allAboveList t b) := by
  induction a with
  | nil => simp [allAboveList]
  | cons c cs ih => simp [allAboveList, ih, Bool.and_assoc]

mutual

theorem scan_directory_allAbove : ∀ (e : FSEntry) (nm : String) (t : Nat) (node : AuditNode),
    scan_directory nm t e = .ok node → allAbove t node = true
  | .file _, _, _, _ => by simp [scan_directory]
  | .badFile _, _, _, _ => by simp [scan_directory]
  | .badDir err, nm, t, node => by
    cases err <;> simp [scan_directory]
    rintro rfl
    simp [allAbove, allAboveList]
  | .dir entries, nm, t, node => by
    intro h
    simp only [scan_directory] at h
    cases hsl : scan_list t entries with
    | error e => rw [hsl] at h; exact absurd h (by simp)
    | ok r =>
      obtain ⟨found, nf, sz⟩ := r
      rw [hsl] at h
      simp at h
      rw [← h, allAbove]
      exact scan_list_allAbove entries t found nf sz hsl

theorem scan_list_allAbove : ∀ (l : List (String × FSEntry)) (t : Nat)
    (found : List AuditNode) (nf sz : Nat),
    scan_list t l = .ok (found, nf, sz) → allAboveList t found = true
  | [], _, found, nf, sz => by
    intro h
    simp only [scan_list, Except.ok.injEq, Prod.mk.injEq] at h
    rw [← h.1, allAboveList]
  | (nm, e) :: rest, t, found, nf, sz => by
    intro h
    simp only [scan_list] at h
    by_cases hd : e.isDir
    · rw [if_pos hd] at h
      cases hsd : scan_directory nm t e with
      | error err => rw [hsd] at h; exact absurd h (by simp)
      | ok sub =>
        rw [hsd] at h
        cases hsl : scan_list t rest with
        | error err => rw [hsl] at h; exact absurd h (by simp)
        | ok r =>
          obtain ⟨found2, nf2, sz2⟩ := r
          rw [hsl] at h
          simp at h
          obtain ⟨hf, -, -⟩ := h
          rw [← hf, allAboveList_append]
          have h2 := scan_list_allAbove rest t found2 nf2 sz2 hsl
          by_cases hk : t ≤ sub.total_size
          · simp [hk, allAboveList, h2, scan_directory_allAbove e nm t sub hsd]
          · simp [hk, allAboveList, h2]
    · rw [if_neg hd] at h
      cases hgs : e.getsize with
      | error err => rw [hgs] at h; exact absurd h (by simp)
      | ok fsz =>
        rw [hgs] at h
        cases hsl : scan_list t rest with
        | error err => rw [hsl] at h; exact absurd h (by simp)
        | ok r =>
          obtain ⟨found2, nf2, sz2⟩ := r
          rw [hsl] at h
          simp at h
          obtain ⟨hf, -, -⟩ := h
          rw [← hf, allAboveList_append]
          have h2 := scan_list_allAbove rest t found2 nf2 sz2 hsl
          by_cases hk : t ≤ fsz
          · simp [hk, allAboveList, allAbove, h2, AuditNode.total_size]
          · simp [hk, allAboveList, h2]

end


mutual

theorem scan_directory_ok_iff : ∀ (e : FSEntry) (nm : String) (t : Nat), e.isDir = true →
    exOk (scan_directory nm t e) = !fatal e
  | .file _, _, _ => by simp [FSEntry.isDir]
  | .badFile _, _, _ => by simp [FSEntry.isDir]
  | .badDir err, nm, t => by
    intro _
    cases err <;> simp [scan_directory, exOk, fatal]
  | .dir entries, nm, t => by
    intro _
    rw [fatal, ← scan_list_ok_iff entries t]
    simp only [scan_directory]
    cases hsl : scan_list t entries with
    | error e => simp [exOk]
    | ok r =>
      obtain ⟨found, nf, sz⟩ := r
      simp [exOk]

theorem scan_list_ok_iff : ∀ (l : List (String × FSEntry)) (t : Nat),
    exOk (scan_list t l) = !fatal_list l
  | [], _ => by simp [scan_list, fatal_list, exOk]
  | (nm, e) :: rest, t => by
    rw [fatal_list]
    simp only [scan_list]
    by_cases hd : e.isDir
    · rw [if_pos hd]
      have he := scan_directory_ok_iff e nm t hd
      cases hsd : scan_directory nm t e with
      | error err =>
        rw [hsd] at he
        simp [exOk] at he
        simp [exOk, ← he]
      | ok sub =>
        rw [hsd] at he
        simp [exOk] at he
        have hr := scan_list_ok_iff rest t
        cases hsl : scan_list t rest with
        | error err =>
          rw [hsl] at hr
          simp [exOk] at hr
          simp [exOk, he, hr]
        | ok r =>
          obtain ⟨found, nf, sz⟩ := r
          rw [hsl] at hr
          simp [exOk] at hr
          simp [exOk, he, hr]
    · rw [if_neg hd]
      have hfe : fatal e = !exOk e.getsize := by
        cases e <;> simp_all [FSEntry.isDir, FSEntry.getsize, fatal, exOk]
      cases hgs : e.getsize with
      | error err =>
        rw [hgs] at hfe
        simp [exOk] at hfe
        simp [exOk, hfe]
      | ok fsz =>
        rw [hgs] at hfe
        simp [exOk] at hfe
        have hr := scan_list_ok_iff rest t
        cases hsl : scan_list t rest with
        | error err =>
          rw [hsl] at hr
          simp [exOk] at hr
          simp [exOk, hfe, ← hr]
        | ok r =>
          obtain ⟨found, nf, sz⟩ := r
          rw [hsl] at hr
          simp [exOk] at hr
          simp [exOk, hfe, ← hr]

end

theorem pruneNode_name (t : Nat) (n : AuditNode) : (pruneNode t n).name = n.name := by
  cases n; rfl

theorem pruneNode_num (t : Nat) (n : AuditNode) : (pruneNode t n).num_files = n.num_files := by
  cases n; rfl

theorem pruneNode_total (t : Nat) (n : AuditNode) : (pruneNode t n).total_size = n.total_size := by
  cases n; rfl

mutual

theorem scan_directory_prune : ∀ (e : FSEntry) (nm : String) (t : Nat),
    scan_directory nm t e = Except.map (pruneNode t) (scan_directory nm 0 e)
  | .file _, _, _ => by simp [scan_directory, Except.map]
  | .badFile _, _, _ => by simp [scan_directory, Except.map]
  | .badDir err, nm, t => by
    cases err <;> simp [scan_directory, Except.map, pruneNode, pruneList]
  | .dir entries, nm, t => by
    simp only [scan_directory]
    rw [scan_list_prune entries t]
    cases hsl : scan_list 0 entries with
    | error e => simp [Except.map]
    | ok r =>
      obtain ⟨found, nf, sz⟩ := r
      simp [Except.map, pruneNode]

theorem scan_list_prune : ∀ (l : List (String × FSEntry)) (t : Nat),
    scan_list t l =
      Except.map (fun r : List AuditNode × Nat × Nat => (pruneList t r.1, r.2.1, r.2.2))
        (scan_list 0 l)
  | [], _ => by simp [scan_list, Except.map, pruneList]
  | (nm, e) :: rest, t => by
    simp only [scan_list]
    by_cases hd : e.isDir
    · rw [if_pos hd, if_pos hd]
      rw [scan_directory_prune e nm t]
      cases hsd : scan_directory nm 0 e with
      | error err => simp [Except.map]
      | ok sub =>
        rw [scan_list_prune rest t]
        cases hsl : scan_list 0 rest with
        | error err => simp [Except.map]
        | ok r =>
          obtain ⟨found, nf, sz⟩ := r
          simp only [Except.map, pruneNode_total, pruneNode_num, Nat.zero_le, if_true, if_pos]
          simp [pruneList, pruneNode_total]
    · rw [if_neg hd, if_neg hd]
      cases hgs : e.getsize with
      | error err => simp [Except.map]
      | ok fsz =>
        rw [scan_list_prune rest t]
        cases hsl : scan_list 0 rest with
        | error err => simp [Except.map]
        | ok r =>
          obtain ⟨found, nf, sz⟩ := r
          simp [Except.map, pruneList, pruneNode, AuditNode.total_size]

end

theorem sizeMonoList_append (s : Nat) (a b : List AuditNode) :
    sizeMonoList s (a ++ b) = (sizeMonoList s a && sizeMonoList s b) := by
  induction a with
  | nil => simp [sizeMonoList]
  | cons c cs ih => simp [sizeMonoList, ih, Bool.and_assoc]

theorem sizeMonoList_mono (s s' : Nat) (l : List AuditNode) (hs : s ≤ s')
    (h : sizeMonoList s l = true) : sizeMonoList s' l = true := by
  induction l with
  | nil => simp [sizeMonoList]
  | cons c cs ih =>
    simp only [sizeMonoList, Bool.and_eq_true, decide_eq_true_eq] at h ⊢
    exact ⟨⟨Nat.le_trans h.1.1 hs, h.1.2⟩, ih h.2⟩

mutual

theorem scan_directory_sizeMono : ∀ (e : FSEntry) (nm : String) (t : Nat) (node : AuditNode),
    scan_directory nm t e = .ok node → sizeMono node = true
  | .file _, _, _, _ => by simp [scan_directory]
  | .badFile _, _, _, _ => by simp [scan_directory]
  | .badDir err, nm, t, node => by
    cases err <;> simp [scan_directory]
    rintro rfl
    simp [sizeMono, sizeMonoList]
  | .dir entries, nm, t, node => by
    intro h
    simp only [scan_directory] at h
    cases hsl : scan_list t entries with
    | error e => rw [hsl] at h; exact absurd h (by simp)
    | ok r =>
      obtain ⟨found, nf, sz⟩ := r
      rw [hsl] at h
      simp at h
      rw [← h, sizeMono]
      exact scan_list_sizeMono entries t found nf sz hsl

theorem scan_list_sizeMono : ∀ (l : List (String × FSEntry)) (t : Nat)
    (found : List AuditNode) (nf sz : Nat),
    scan_list t l = .ok (found, nf, sz) → sizeMonoList sz found = true
  | [], _, found, nf, sz => by
    intro h
    simp only [scan_list, Except.ok.injEq, Prod.mk.injEq] at h
    rw [← h.1, sizeMonoList]
  | (nm, e) :: rest, t, found, nf, sz => by
    intro h
    simp only [scan_list] at h
    by_cases hd : e.isDir
    · rw [if_pos hd] at h
      cases hsd : scan_directory nm t e with
      | error err => rw [hsd] at h; exact absurd h (by simp)
      | ok sub =>
        rw [hsd] at h
        cases hsl : scan_list t rest with
        | error err => rw [hsl] at h; exact absurd h (by simp)
        | ok r =>
          obtain ⟨found2, nf2, sz2⟩ := r
          rw [hsl] at h
          simp at h
          obtain ⟨hf, -, hsz⟩ := h
          have h2 := scan_list_sizeMono rest t found2 nf2 sz2 hsl
          have h2' : sizeMonoList sz found2 = true :=
            sizeMonoList_mono sz2 sz found2 (by omega) h2
          rw [← hf, sizeMonoList_append]
          by_cases hk : t ≤ sub.total_size
          · simp [hk, sizeMonoList, h2', scan_directory_sizeMono e nm t sub hsd]
            omega
          · simp [hk, sizeMonoList, h2']
    · rw [if_neg hd] at h
      cases hgs : e.getsize with
      | error err => rw [hgs] at h; exact absurd h (by simp)
      | ok fsz =>
        rw [hgs] at h
        cases hsl : scan_list t rest with
        | error err => rw [hsl] at h; exact absurd h (by simp)
        | ok r =>
          obtain ⟨found2, nf2, sz2⟩ := r
          rw [hsl] at h
          simp at h
          obtain ⟨hf, -, hsz⟩ := h
          have h2 := scan_list_sizeMono rest t found2 nf2 sz2 hsl
          have h2' : sizeMonoList sz found2 = true :=
            sizeMonoList_mono sz2 sz found2 (by omega) h2
          rw [← hf, sizeMonoList_append]
          by_cases hk : t ≤ fsz
          · simp [hk, sizeMonoList, h2', sizeMono, AuditNode.total_size]
            omega
          · simp [hk, sizeMonoList, h2']

end

theorem isDescB_refl (n : AuditNode) : isDescB n n = true := by
  cases n
  simp [isDescB]

theorem isDescList_append (a b : List AuditNode) (d : AuditNode) :
    isDescList (a ++ b) d = (isDescList a d || isDescList b d) := by
  induction a with
  | nil => simp [isDescList]
  | cons c cs ih => simp [isDescList, ih, Bool.or_assoc]

mutual

theorem desc_size : ∀ (n d : AuditNode), sizeMono n = true → isDescB n d = true →
    d.total_size ≤ n.total_size
  | .mk nm fs c s, d => by
    intro hm hd
    simp only [isDescB, Bool.or_eq_true, decide_eq_true_eq] at hd
    cases hd with
    | inl he => rw [← he]
    | inr he =>
      rw [sizeMono] at hm
      exact desc_size_list fs s d hm he

theorem desc_size_list : ∀ (l : List AuditNode) (s : Nat) (d : AuditNode),
    sizeMonoList s l = true → isDescList l d = true → d.total_size ≤ s
  | [], s, d => by simp [isDescList]
  | c :: cs, s, d => by
    intro hm hd
    simp only [sizeMonoList, Bool.and_eq_true, decide_eq_true_eq] at hm
    simp only [isDescList, Bool.or_eq_true] at hd
    cases hd with
    | inl he => exact Nat.le_trans (desc_size c d hm.1.2 he) hm.1.1
    | inr he => exact desc_size_list cs s d hm.2 he

end

mutual

theorem desc_prune : ∀ (n d : AuditNode) (t : Nat), sizeMono n = true →
    isDescB n d = true → t ≤ d.total_size →
    isDescB (pruneNode t n) (pruneNode t d) = true
  | .mk nm fs c s, d, t => by
    intro hm hd ht
    simp only [isDescB, Bool.or_eq_true, decide_eq_true_eq] at hd
    cases hd with
    | inl he => rw [he]; exact isDescB_refl (pruneNode t d)
    | inr he =>
      rw [sizeMono] at hm
      simp only [pruneNode, isDescB, Bool.or_eq_true]
      exact Or.inr (desc_prune_list fs s d t hm he ht)

theorem desc_prune_list : ∀ (l : List AuditNode) (s : Nat) (d : AuditNode) (t : Nat),
    sizeMonoList s l = true → isDescList l d = true → t ≤ d.total_size →
    isDescList (pruneList t l) (pruneNode t d) = true
  | [], s, d, t => by simp [isDescList]
  | c :: cs, s, d, t => by
    intro hm hd ht
    simp only [sizeMonoList, Bool.and_eq_true, decide_eq_true_eq] at hm
    simp only [isDescList, Bool.or_eq_true] at hd
    rw [pruneList, isDescList_append, Bool.or_eq_true]
    cases hd with
    | inl he =>
      have hts : t ≤ c.total_size := Nat.le_trans ht (desc_size c d hm.1.2 he)
      rw [if_pos hts]
      exact Or.inl (by
        simp only [isDescList, Bool.or_eq_true]
        exact Or.inl (desc_prune c d t hm.1.2 he ht))
    | inr he => exact Or.inr (desc_prune_list cs s d t hm.2 he ht)

end

mutual

theorem pruneNode_comp : ∀ (n : AuditNode) (t1 t2 : Nat), t1 ≤ t2 →
    pruneNode t2 (pruneNode t1 n) = pruneNode t2 n
  | .mk nm fs c s, t1, t2 => by
    intro h
    simp [pruneNode, pruneList_comp fs t1 t2 h]

theorem pruneList_comp : ∀ (l : List AuditNode) (t1 t2 : Nat), t1 ≤ t2 →
    pruneList t2 (pruneList t1 l) = pruneList t2 l
  | [], _, _ => by simp [pruneList]
  | c :: cs, t1, t2 => by
    intro h
    rw [pruneList]
    by_cases h1 : t1 ≤ c.total_size
    · rw [if_pos h1]
      simp only [List.singleton_append, pruneList, pruneNode_total, List.append_eq,
        List.nil_append]
      rw [pruneList_comp cs t1 t2 h, pruneNode_comp c t1 t2 h]
    · rw [if_neg h1]
      simp only [List.nil_append]
      rw [pruneList_comp cs t1 t2 h, pruneList]
      have h2 : ¬ t2 ≤ c.total_size := by omega
      rw [if_neg h2]
      simp

end

mutual

theorem prune_desc_inv : ∀ (n d : AuditNode) (t : Nat),
    isDescB (pruneNode t n) d = true → ∃ d0, isDescB n d0 = true ∧ d = pruneNode t d0
  | .mk nm fs c s, d, t => by
    intro h
    simp only [pruneNode, isDescB, Bool.or_eq_true, decide_eq_true_eq] at h
    cases h with
    | inl he =>
      refine ⟨.mk nm fs c s, isDescB_refl _, ?_⟩
      rw [← he, pruneNode]
    | inr he =>
      obtain ⟨d0, hd0, hdp⟩ := prune_desc_inv_list fs d t he
      refine ⟨d0, ?_, hdp⟩
      simp only [isDescB, Bool.or_eq_true]
      exact Or.inr hd0

theorem prune_desc_inv_list : ∀ (l : List AuditNode) (d : AuditNode) (t : Nat),
    isDescList (pruneList t l) d = true → ∃ d0, isDescList l d0 = true ∧ d = pruneNode t d0
  | [], d, t => by simp [pruneList, isDescList]
  | c :: cs, d, t => by
    intro h
    rw [pruneList, isDescList_append, Bool.or_eq_true] at h
    cases h with
    | inl he =>
      by_cases hk : t ≤ c.total_size
      · rw [if_pos hk] at he
        simp [isDescList] at he
        obtain ⟨d0, hd0, hdp⟩ := prune_desc_inv c d t he
        refine ⟨d0, ?_, hdp⟩
        simp only [isDescList, Bool.or_eq_true]
        exact Or.inl hd0
      · rw [if_neg hk] at he
        simp [isDescList] at he
    | inr he =>
      obtain ⟨d0, hd0, hdp⟩ := prune_desc_inv_list cs d t he
      refine ⟨d0, ?_, hdp⟩
      simp only [isDescList, Bool.or_eq_true]
      exact Or.inr hd0

end

/-! ### Lemmas about the stable descending sort -/

theorem insertDesc_perm (x : AuditNode) (l : List AuditNode) :
    (insertDesc x l).Perm (x :: l) := by
  induction l with
  | nil => simp [insertDesc]
  | cons y ys ih =>
    rw [insertDesc]
    by_cases h : x.total_size < y.total_size
    · rw [if_pos h]
      exact (ih.cons y).trans (List.Perm.swap x y ys)
    · rw [if_neg h]

theorem sortChildren_perm (l : List AuditNode) : (sortChildren l).Perm l := by
  induction l with
  | nil => simp [sortChildren]
  | cons x xs ih =>
    rw [sortChildren]
    exact (insertDesc_perm x (sortChildren xs)).trans (ih.cons x)

/-- Whether the first element of the list (if any) is no larger than `b`. -/
def headLe (b : Nat) : List AuditNode → Bool
  | [] => true
  | a :: _ => decide (a.total_size ≤ b)

theorem sortedDesc_cons (a : AuditNode) (l : List AuditNode) :
    sortedDesc (a :: l) = (headLe a.total_size l && sortedDesc l) := by
  cases l with
  | nil => simp [sortedDesc, headLe]
  | cons b bs => simp [sortedDesc, headLe]

theorem insertDesc_headLe (b : Nat) (x : AuditNode) (l : List AuditNode)
    (hl : headLe b l = true) (hx : x.total_size ≤ b) :
    headLe b (insertDesc x l) = true := by
  cases l with
  | nil => simpa [insertDesc, headLe]
  | cons y ys =>
    rw [insertDesc]
    by_cases h : x.total_size < y.total_size
    · rw [if_pos h]
      exact hl
    · rw [if_neg h]
      simpa [headLe]

theorem sortedDesc_insertDesc (x : AuditNode) (l : List AuditNode)
    (hl : sortedDesc l = true) : sortedDesc (insertDesc x l) = true := by
  induction l with
  | nil => simp [insertDesc, sortedDesc]
  | cons y ys ih =>
    rw [sortedDesc_cons, Bool.and_eq_true] at hl
    rw [insertDesc]
    by_cases h : x.total_size < y.total_size
    · rw [if_pos h, sortedDesc_cons, Bool.and_eq_true]
      exact ⟨insertDesc_headLe y.total_size x ys hl.1 (Nat.le_of_lt h), ih hl.2⟩
    · rw [if_neg h, sortedDesc_cons, Bool.and_eq_true]
      refine ⟨by simpa [headLe] using Nat.le_of_not_lt h, ?_⟩
      rw [sortedDesc_cons, Bool.and_eq_true]
      exact hl

theorem sortedDesc_sortChildren (l : List AuditNode) :
    sortedDesc (sortChildren l) = true := by
  induction l with
  | nil => simp [sortChildren, sortedDesc]
  | cons x xs ih => exact sortedDesc_insertDesc x (sortChildren xs) ih

theorem insertDesc_of_sorted (x : AuditNode) (xs : List AuditNode)
    (h : sortedDesc (x :: xs) = true) : insertDesc x xs = x :: xs := by
  cases xs with
  | nil => rfl
  | cons y ys =>
    rw [sortedDesc, Bool.and_eq_true, decide_eq_true_eq] at h
    rw [insertDesc, if_neg (Nat.not_lt.mpr h.1)]

theorem sortChildren_of_sorted (l : List AuditNode)
    (h : sortedDesc l = true) : sortChildren l = l := by
  induction l with
  | nil => rfl
  | cons x xs ih =>
    rw [sortedDesc_cons, Bool.and_eq_true] at h
    rw [sortChildren, ih h.2]
    exact insertDesc_of_sorted x xs (by rw [sortedDesc_cons, Bool.and_eq_true]; exact h)

theorem sortedDesc_chain : ∀ l : List AuditNode,
    sortedDesc l = true ↔ List.Chain' (fun a b : AuditNode => b.total_size ≤ a.total_size) l
  | [] => by simp [sortedDesc]
  | [a] => by simp [sortedDesc]
  | a :: b :: rest => by
    rw [sortedDesc, List.chain'_cons, Bool.and_eq_true, decide_eq_true_eq,
      sortedDesc_chain (b :: rest)]

instance : IsTrans AuditNode (fun a b => b.total_size ≤ a.total_size) :=
  ⟨fun _ _ _ h1 h2 => Nat.le_trans h2 h1⟩

theorem sortedDesc_pairwise (l : List AuditNode) (h : sortedDesc l = true) :
    List.Pairwise (fun a b : AuditNode => b.total_size ≤ a.total_size) l :=
  List.chain'_iff_pairwise.mp ((sortedDesc_chain l).mp h)

theorem filter_insertDesc (x : AuditNode) (l : List AuditNode) (s : Nat) :
    (insertDesc x l).filter (fun y => decide (y.total_size = s)) =
      if x.total_size = s then x :: l.filter (fun y => decide (y.total_size = s))
      else l.filter (fun y => decide (y.total_size = s)) := by
  induction l with
  | nil => by_cases h : x.total_size = s <;> simp [insertDesc, h]
  | cons y ys ih =>
    rw [insertDesc]
    by_cases h : x.total_size < y.total_size
    · rw [if_pos h]
      by_cases hx : x.total_size = s
      · have hy : ¬ y.total_size = s := by omega
        simp [List.filter_cons, hx, hy, ih]
      · by_cases hy : y.total_size = s <;> simp [List.filter_cons, hx, hy, ih]
    · rw [if_neg h]
      by_cases hx : x.total_size = s <;> simp [List.filter_cons, hx]

theorem filter_sortChildren (l : List AuditNode) (s : Nat) :
    (sortChildren l).filter (fun y => decide (y.total_size = s)) =
      l.filter (fun y => decide (y.total_size = s)) := by
  induction l with
  | nil => rfl
  | cons x xs ih =>
    rw [sortChildren, filter_insertDesc, List.filter_cons]
    by_cases hx : x.total_size = s <;> simp [hx, ih]

/-! ### Lemmas about the renderer -/

theorem print_scan_results_eq (nm : String) (fs : List AuditNode) (c s i : Nat) :
    print_scan_results (.mk nm fs c s) i =
      (nodeLine (.mk nm fs c s) i ++ (print_scan_list (sortChildren fs) (i + 1)).1,
       .mk nm (print_scan_list (sortChildren fs) (i + 1)).2 c s) := by
  rw [print_scan_results]

theorem print_scan_list_nil (i : Nat) : print_scan_list [] i = ("", []) := by
  rw [print_scan_list]

theorem print_scan_list_cons (c : AuditNode) (cs : List AuditNode) (i : Nat) :
    print_scan_list (c :: cs) i =
      ((print_scan_results c i).1 ++ (print_scan_list cs i).1,
       (print_scan_results c i).2 :: (print_scan_list cs i).2) := by
  rw [print_scan_list]

theorem nodeLine_files (nm : String) (fs fs' : List AuditNode) (c s : Nat) (i : Nat) :
    nodeLine (.mk nm fs c s) i = nodeLine (.mk nm fs' c s) i := rfl

theorem print_mut_total (r : AuditNode) (i : Nat) :
    (print_scan_results r i).2.total_size = r.total_size := by
  obtain ⟨nm, fs, c, s⟩ := r
  rw [print_scan_results_eq]
  rfl

theorem print_mut_num (r : AuditNode) (i : Nat) :
    (print_scan_results r i).2.num_files = r.num_files := by
  obtain ⟨nm, fs, c, s⟩ := r
  rw [print_scan_results_eq]
  rfl

theorem print_mut_name (r : AuditNode) (i : Nat) :
    (print_scan_results r i).2.name = r.name := by
  obtain ⟨nm, fs, c, s⟩ := r
  rw [print_scan_results_eq]
  rfl

theorem print_scan_list_map (cs : List AuditNode) (i : Nat) :
    (print_scan_list cs i).2 = cs.map (fun c => (print_scan_results c i).2) := by
  induction cs with
  | nil => simp [print_scan_list_nil]
  | cons c rest ih => simp [print_scan_list_cons, ih]

theorem sortedDesc_map : ∀ (l : List AuditNode) (f : AuditNode → AuditNode),
    (∀ x, (f x).total_size = x.total_size) → sortedDesc (l.map f) = sortedDesc l
  | [], _, _ => rfl
  | [_], _, _ => rfl
  | a :: b :: rest, f, hf => by
    have := sortedDesc_map (b :: rest) f hf
    simp only [List.map_cons] at this ⊢
    rw [sortedDesc, sortedDesc, hf, hf, this]

theorem everySortedList_iff (l : List AuditNode) :
    everySortedList l = true ↔ ∀ c ∈ l, everySorted c = true := by
  induction l with
  | nil => simp [everySortedList]
  | cons c cs ih => simp [everySortedList, ih]

theorem sizeOf_mk_files (nm : String) (fs : List AuditNode) (c s : Nat) :
    sizeOf fs < sizeOf (AuditNode.mk nm fs c s) := by
  simp
  omega

theorem everySorted_print_aux : ∀ (k : Nat) (r : AuditNode), sizeOf r ≤ k → ∀ i : Nat,
    everySorted (print_scan_results r i).2 = true := by
  intro k
  induction k with
  | zero =>
    intro r hr
    obtain ⟨nm, fs, c, s⟩ := r
    simp at hr
  | succ k ih =>
    intro r hr i
    obtain ⟨nm, fs, c, s⟩ := r
    rw [print_scan_results_eq]
    rw [everySorted, print_scan_list_map, Bool.and_eq_true]
    constructor
    · rw [sortedDesc_map (sortChildren fs) _ (fun x => print_mut_total x (i + 1)),
        sortedDesc_sortChildren]
    · rw [everySortedList_iff]
      intro m hm
      rw [List.mem_map] at hm
      obtain ⟨c0, hc0, hm⟩ := hm
      have hsz : sizeOf c0 ≤ k := by
        have h1 : sizeOf c0 < sizeOf (sortChildren fs) := List.sizeOf_lt_of_mem hc0
        rw [sizeOf_sortChildren] at h1
        have h2 := sizeOf_mk_files nm fs c s
        omega
      rw [← hm]
      exact ih c0 hsz (i + 1)

theorem everySorted_print (r : AuditNode) (i : Nat) :
    everySorted (print_scan_results r i).2 = true :=
  everySorted_print_aux (sizeOf r) r (Nat.le_refl _) i

theorem print_scan_list_idem (cs : List AuditNode) (i : Nat)
    (h : ∀ c ∈ cs, print_scan_results ((print_scan_results c i).2) i = print_scan_results c i) :
    print_scan_list (cs.map (fun c => (print_scan_results c i).2)) i =
      ((print_scan_list cs i).1, cs.map (fun c => (print_scan_results c i).2)) := by
  induction cs with
  | nil => simp [print_scan_list_nil]
  | cons c rest ih =>
    simp only [List.map_cons, print_scan_list_cons]
    rw [h c (by simp), ih (fun c hc => h c (by simp [hc]))]

theorem print_idem_aux : ∀ (k : Nat) (r : AuditNode), sizeOf r ≤ k → ∀ i : Nat,
    print_scan_results ((print_scan_results r i).2) i = print_scan_results r i := by
  intro k
  induction k with
  | zero =>
    intro r hr
    obtain ⟨nm, fs, c, s⟩ := r
    simp at hr
  | succ k ih =>
    intro r hr i
    obtain ⟨nm, fs, c, s⟩ := r
    rw [print_scan_results_eq, print_scan_results_eq]
    have hsorted : sortedDesc ((print_scan_list (sortChildren fs) (i + 1)).2) = true := by
      rw [print_scan_list_map,
        sortedDesc_map (sortChildren fs) _ (fun x => print_mut_total x (i + 1)),
        sortedDesc_sortChildren]
    rw [sortChildren_of_sorted _ hsorted, print_scan_list_map]
    have hmem : ∀ c0 ∈ sortChildren fs,
        print_scan_results ((print_scan_results c0 (i + 1)).2) (i + 1) =
          print_scan_results c0 (i + 1) := by
      intro c0 hc0
      have hsz : sizeOf c0 ≤ k := by
        have h1 : sizeOf c0 < sizeOf (sortChildren fs) := List.sizeOf_lt_of_mem hc0
        rw [sizeOf_sortChildren] at h1
        have h2 := sizeOf_mk_files nm fs c s
        omega
      exact ih c0 hsz (i + 1)
    rw [print_scan_list_idem (sortChildren fs) (i + 1) hmem]
    rw [nodeLine_files nm _ fs c s i]

/-! ### The size formatter agrees with the spec's largest-unit description -/

theorem one_le_div_cast (n b : Nat) (hb : 0 < b) :
    decide (1 ≤ (n : ℚ) / (b : ℚ)) = true ↔ b ≤ n := by
  rw [decide_eq_true_eq]
  rw [one_le_div (by exact_mod_cast hb : (0 : ℚ) < (b : ℚ))]
  exact Nat.cast_le

theorem one_le_div_cast_false (n b : Nat) (hb : 0 < b) (h : ¬ b ≤ n) :
    decide (1 ≤ (n : ℚ) / (b : ℚ)) = false := by
  rw [← Bool.not_eq_true, one_le_div_cast n b hb]
  exact h

theorem storage_repr_eq_py_spec (n : Nat) : storage_repr n = storage_repr_py_spec n := by
  have p12 : (0 : Nat) < 10 ^ 12 := by norm_num
  have p9 : (0 : Nat) < 10 ^ 9 := by norm_num
  have p6 : (0 : Nat) < 10 ^ 6 := by norm_num
  have p3 : (0 : Nat) < 1000 := by norm_num
  rw [storage_repr_py_spec, unitTable, storage_repr]
  by_cases h12 : 10 ^ 12 ≤ n
  · have e1 := (one_le_div_cast n (10 ^ 12) p12).mpr h12
    rw [if_pos h12]
    simp only [List.find?_cons, e1]
    congr 1
  · have e1 := one_le_div_cast_false n (10 ^ 12) p12 h12
    rw [if_neg h12]
    by_cases h9 : 10 ^ 9 ≤ n
    · have e2 := (one_le_div_cast n (10 ^ 9) p9).mpr h9
      rw [if_pos h9]
      simp only [List.find?_cons, e1, e2]
      congr 1
    · have e2 := one_le_div_cast_false n (10 ^ 9) p9 h9
      rw [if_neg h9]
      by_cases h6 : 10 ^ 6 ≤ n
      · have e3 := (one_le_div_cast n (10 ^ 6) p6).mpr h6
        rw [if_pos h6]
        simp only [List.find?_cons, e1, e2, e3]
        congr 1
      · have e3 := one_le_div_cast_false n (10 ^ 6) p6 h6
        rw [if_neg h6]
        by_cases h3 : 1000 ≤ n
        · have e4 := (one_le_div_cast n 1000 p3).mpr h3
          rw [if_pos h3]
          simp only [List.find?_cons, e1, e2, e3, e4]
          congr 1
        · have e4 := one_le_div_cast_false n 1000 p3 h3
          rw [if_neg h3]
          simp only [List.find?_cons, e1, e2, e3, e4, List.find?_nil]

/-! ### Claim theorems -/

/-- C1: For every directory tree and every threshold, the AuditNode returned
by `scan_directory` for the root has `total_size` equal to the sum of the
sizes of every readable file anywhere in the subtree; the right-hand side
does not mention the threshold, so the total is threshold-independent, and
files below the threshold or inside elided directories still contribute. -/
theorem claim_C1_total_size (e : FSEntry) (nm : String) (t : Nat) (node : AuditNode)
    (h : scan_directory nm t e = .ok node) : node.total_size = readable_size e :=
  scan_directory_total e nm t node h

theorem claim_C1_total_size_witness :
    scan_directory "r" 1000 (.dir [("a", .file 500), ("b", .file 2000)]) =
      .ok (.mk "r" [.mk "b" [] 0 2000] 2 2500) ∧
    (AuditNode.mk "r" [.mk "b" [] 0 2000] 2 2500).total_size =
      readable_size (.dir [("a", .file 500), ("b", .file 2000)]) :=
  ⟨rfl, claim_C1_total_size _ "r" 1000 _ rfl⟩

/-- C2: Every node that `scan_directory` places in a parent's `files` list has
`total_size ≥ t`, recursively; the boundary is inclusive (a file whose size
equals the threshold exactly is included); and the renderer always emits the
root's own line first, regardless of the root's total. -/
theorem claim_C2_children_above (e : FSEntry) (nm : String) (t : Nat) (node : AuditNode)
    (h : scan_directory nm t e = .ok node) :
    allAbove t node = true ∧
    (∀ (tb : Nat) (nm1 nm2 : String),
      scan_directory nm1 tb (.dir [(nm2, .file tb)]) =
        .ok (.mk nm1 [.mk nm2 [] 0 tb] 1 tb)) ∧
    (∀ (r : AuditNode) (i : Nat), ∃ rest, (print_scan_results r i).1 = nodeLine r i ++ rest) := by
  refine ⟨scan_directory_allAbove e nm t node h, ?_, ?_⟩
  · intro tb nm1 nm2
    simp [scan_directory, scan_list, FSEntry.isDir, FSEntry.getsize]
  · intro r i
    obtain ⟨nm1, fs, c, s⟩ := r
    exact ⟨(print_scan_list (sortChildren fs) (i + 1)).1, by rw [print_scan_results_eq]⟩

theorem claim_C2_children_above_witness :
    allAbove 2000 (.mk "r" [.mk "b" [] 0 2000] 2 2500) = true ∧
    (∀ (tb : Nat) (nm1 nm2 : String),
      scan_directory nm1 tb (.dir [(nm2, .file tb)]) =
        .ok (.mk nm1 [.mk nm2 [] 0 tb] 1 tb)) ∧
    (∀ (r : AuditNode) (i : Nat), ∃ rest, (print_scan_results r i).1 = nodeLine r i ++ rest) :=
  claim_C2_children_above (.dir [("a", .file 500), ("b", .file 2000)]) "r" 2000
    (.mk "r" [.mk "b" [] 0 2000] 2 2500) rfl

/-- C3 as stated is false at this input: the size query of the nested file
`f` raises a `PermissionError`, which `scan_directory` does not catch (only
listing errors are caught), so the whole scan aborts instead of treating the
entry as empty and completing. -/
theorem claim_C3_counterexample :
    scan_directory "root" 0 (.dir [("f", .badFile .permission)]) = .error .permission := rfl

/-- C3 amended: a `PermissionError` while listing a directory (at any depth)
is recovered as an empty subtree (zero files, zero bytes); apart from that,
the scan of a listable directory succeeds exactly when no reachable entry is
fatal — i.e. any file whose size query fails, or any nested directory whose
listing fails with something other than a `PermissionError`, aborts the whole
scan. -/
theorem claim_C3_amended (nm : String) (t : Nat) (entries : List (String × FSEntry)) :
    scan_directory nm t (.badDir .permission) = .ok (.mk nm [] 0 0) ∧
    exOk (scan_directory nm t (.dir entries)) = !fatal_list entries :=
  ⟨rfl, by rw [scan_directory_ok_iff (.dir entries) nm t rfl, fatal]⟩

/-- C4 as stated is false at this input: when listing the root itself raises
a `PermissionError`, the scan swallows it and `main` returns exit status 0,
although the root path could not be resolved. -/
theorem claim_C4_counterexample : audit_main "r" 0 (.badDir .permission) = .ok 0 := rfl

/-- C4 amended: `main` returns 0 exactly when the scan finishes without an
uncaught exception — which includes a root whose listing fails with a
`PermissionError` (scanned as empty); it returns 1 only when the root does
not exist (`FileNotFoundError`); any other root failure escapes `main`
uncaught. -/
theorem claim_C4_amended (nm : String) (t : Nat) (e : FSEntry) :
    (audit_main nm t e = .ok 0 ↔ exOk (scan_directory nm t e) = true) ∧
    audit_main nm t (.badDir .permission) = .ok 0 ∧
    audit_main nm t (.badDir .fileNotFound) = .ok 1 := by
  refine ⟨?_, rfl, rfl⟩
  simp only [audit_main]
  cases hs : scan_directory nm t e with
  | ok node => simp [exOk]
  | error err => cases err <;> simp [exOk]

/-- C5: at a single-file node the renderer emits the `" (1 file)"` suffix
with a newline and then the `else` branch of the second `if` emits a second
newline, so the line for this node is terminated twice (an extra blank
line), contradicting the one-terminator rule the spec states. -/
theorem claim_C5_single_file_bug :
    (print_scan_results (.mk "a" [] 1 500) 0).1 = "a - 500 bytes (1 file)\n\n" := by
  rw [print_scan_results_eq]
  rw [show sortChildren [] = [] from rfl, print_scan_list_nil]
  rfl

/-- C6: for any threshold, scanning equals pruning the full (threshold-0)
tree, and every descendant of the full tree whose aggregate size meets the
threshold is still present (in pruned form) in the pruned tree: every
ancestor of a qualifying node has at least the qualifying node's size, so no
intermediate ancestor is elided. -/
theorem claim_C6_qualifying_descendants (e : FSEntry) (nm : String) (t : Nat)
    (full d : AuditNode) (hfull : scan_directory nm 0 e = .ok full)
    (hd : isDescB full d = true) (ht : t ≤ d.total_size) :
    scan_directory nm t e = .ok (pruneNode t full) ∧
    isDescB (pruneNode t full) (pruneNode t d) = true := by
  constructor
  · rw [scan_directory_prune e nm t, hfull]
    rfl
  · exact desc_prune full d t (scan_directory_sizeMono e nm 0 full hfull) hd ht

theorem claim_C6_qualifying_descendants_witness :
    scan_directory "r" 5 (.dir [("sub", .dir [("big", .file 5)])]) =
      .ok (pruneNode 5 (.mk "r" [.mk "sub" [.mk "big" [] 0 5] 1 5] 1 5)) ∧
    isDescB (pruneNode 5 (.mk "r" [.mk "sub" [.mk "big" [] 0 5] 1 5] 1 5))
      (pruneNode 5 (.mk "big" [] 0 5)) = true :=
  claim_C6_qualifying_descendants (.dir [("sub", .dir [("big", .file 5)])]) "r" 5
    (.mk "r" [.mk "sub" [.mk "big" [] 0 5] 1 5] 1 5) (.mk "big" [] 0 5) rfl rfl
    (by decide)

/-- C7: the sort the renderer applies to each `files` list is a permutation,
orders the children by non-increasing `total_size`, and is stable (children
of any given size appear in their original discovery order); the rendered
output lists the children exactly in this sorted order. -/
theorem claim_C7_sorted_stable (l : List AuditNode) :
    (sortChildren l).Perm l ∧
    List.Pairwise (fun a b : AuditNode => b.total_size ≤ a.total_size) (sortChildren l) ∧
    (∀ s : Nat, (sortChildren l).filter (fun y => decide (y.total_size = s)) =
      l.filter (fun y => decide (y.total_size = s))) ∧
    (∀ (nm : String) (fs : List AuditNode) (c s i : Nat),
      (print_scan_results (.mk nm fs c s) i).1 =
        nodeLine (.mk nm fs c s) i ++ (print_scan_list (sortChildren fs) (i + 1)).1) := by
  refine ⟨sortChildren_perm l,
    sortedDesc_pairwise (sortChildren l) (sortedDesc_sortChildren l),
    fun s => filter_sortChildren l s, ?_⟩
  intro nm fs c s i
  rw [print_scan_results_eq]

/-- C8: raising the threshold is monotone: with `t1 ≤ t2` the scan at `t2` is
exactly the further-pruned scan at `t1`, and every node of a `t2`-pruned tree
is the pruned image of a node of the unpruned tree, so the set of surfaced
nodes at `t2` is a subset of the set at `t1`. -/
theorem claim_C8_threshold_monotone (nm : String) (t1 t2 : Nat) (e : FSEntry)
    (h : t1 ≤ t2) :
    scan_directory nm t2 e = Except.map (pruneNode t2) (scan_directory nm t1 e) ∧
    (∀ x d : AuditNode, isDescB (pruneNode t2 x) d = true →
      ∃ d0, isDescB x d0 = true ∧ d = pruneNode t2 d0) := by
  constructor
  · rw [scan_directory_prune e nm t2, scan_directory_prune e nm t1]
    cases hs : scan_directory nm 0 e with
    | error err => simp [Except.map]
    | ok full => simp [Except.map, pruneNode_comp full t1 t2 h]
  · intro x d hd
    exact prune_desc_inv x d t2 hd

theorem claim_C8_threshold_monotone_witness :
    scan_directory "r" 2 (.dir [("a", .file 1), ("b", .file 2)]) =
      Except.map (pruneNode 2) (scan_directory "r" 1 (.dir [("a", .file 1), ("b", .file 2)])) ∧
    (∀ x d : AuditNode, isDescB (pruneNode 2 x) d = true →
      ∃ d0, isDescB x d0 = true ∧ d = pruneNode 2 d0) :=
  claim_C8_threshold_monotone "r" 1 2 (.dir [("a", .file 1), ("b", .file 2)]) (by decide)

/-- C9 as stated is false at n = 2675: the program computes
`round(2675/1000, 2)` on the binary64 value of the quotient, whose exact
value is just below 2.675, and renders `"2.67 KB"`; the exact quotient
rounded to two decimal places is 2.68, so the literal transcription of the
claim's words renders `"2.68 KB"`. -/
theorem claim_C9_counterexample :
    storage_repr 2675 = "2.67 KB" ∧ storage_repr_spec 2675 = "2.68 KB" := by
  constructor
  · rfl
  · rw [storage_repr_spec, unitTable]
    have e1 := one_le_div_cast_false 2675 (10 ^ 12) (by norm_num) (by norm_num)
    have e2 := one_le_div_cast_false 2675 (10 ^ 9) (by norm_num) (by norm_num)
    have e3 := one_le_div_cast_false 2675 (10 ^ 6) (by norm_num) (by norm_num)
    have e4 := (one_le_div_cast 2675 1000 (by norm_num)).mpr (by norm_num)
    simp only [List.find?_cons, e1, e2, e3, e4]
    rfl

/-- C9 amended: `storage_repr` picks the largest unit among TB, GB, MB, KB
for which the converted value is at least 1, with decimal (1000-based)
boundaries, and renders counts below 1000 as the raw integer followed by
`" bytes"`; the displayed value, however, is Python's `round(n/base, 2)`
computed in binary64 floating point — rounding the float nearest the
quotient, not the exact quotient — so it agrees with the spec's description
amended to that value (both modelled for quotients below 10^16, beneath
Python repr's switch to scientific notation). -/
theorem claim_C9_amended (n : Nat) : storage_repr n = storage_repr_py_spec n :=
  storage_repr_eq_py_spec n

/-- C10: rendering mutates its input: after a render every `files` list in
the returned tree is sorted (the scanner's discovery order is lost — at the
given concrete tree the result differs from the input), and a subsequent
render of the mutated tree reproduces the same output on the already-sorted
lists (it is a fixed point of rendering). -/
theorem claim_C10_render_mutates :
    (∀ (r : AuditNode) (i : Nat), everySorted (print_scan_results r i).2 = true) ∧
    (print_scan_results (.mk "d" [.mk "a" [] 0 1, .mk "b" [] 0 2] 2 3) 0).2 ≠
      .mk "d" [.mk "a" [] 0 1, .mk "b" [] 0 2] 2 3 ∧
    (∀ (r : AuditNode) (i : Nat),
      print_scan_results ((print_scan_results r i).2) i = print_scan_results r i) := by
  refine ⟨everySorted_print, ?_, fun r i => print_idem_aux (sizeOf r) r (Nat.le_refl _) i⟩
  have hmut : (print_scan_results (.mk "d" [.mk "a" [] 0 1, .mk "b" [] 0 2] 2 3) 0).2 =
      .mk "d" [.mk "b" [] 0 2, .mk "a" [] 0 1] 2 3 := by
    rw [print_scan_results_eq]
    rw [show sortChildren [AuditNode.mk "a" [] 0 1, .mk "b" [] 0 2] =
        [AuditNode.mk "b" [] 0 2, .mk "a" [] 0 1] from rfl]
    rw [print_scan_list_cons, print_scan_list_cons, print_scan_list_nil]
    rw [print_scan_results_eq, print_scan_results_eq]
    rw [show sortChildren ([] : List AuditNode) = [] from rfl, print_scan_list_nil]
  rw [hmut]
  decide
